import Mathlib

/-!
Shallow embedding of `src/local_defor_rate.py` (function `local_defor_rate`).

The 2-D raster is modelled as a total function `ℤ → ℤ → ℤ` (row, column),
meaningful on `[0, ysize) × [0, xsize)`.  Floating-point arithmetic is
idealized: focal densities live in `ℚ`, the annualization formula (which uses
a real exponent `time_interval`) lives in `ℝ`, and `np.rint` is modelled as
round-half-to-even on `ℝ`.
-/

/-- `extra_lines = win_size // 2` (line 94). -/
def halo (winSize : ℕ) : ℕ := winSize / 2

/-- Number of iterations of `range(0, ysize, blk_rows)` (line 86). -/
def numBlocks (blkRows ysize : ℕ) : ℕ := (ysize + blkRows - 1) / blkRows

/-- The nominal block start rows `i` of the loop `range(0, ysize, blk_rows)`. -/
def blockStarts (blkRows ysize : ℕ) : List ℕ :=
  (List.range (numBlocks blkRows ysize)).map (fun k => k * blkRows)

/-- Rows read for the block starting at `i` (lines 99-102). -/
def blockRows (winSize blkRows ysize i : ℕ) : ℕ :=
  if i + blkRows + 2 * halo winSize - 1 < ysize then blkRows + 2 * halo winSize
  else ysize - i + halo winSize

/-- `yoff = max(0, i - extra_lines)` (line 103); `ℕ` subtraction is the `max`. -/
def blockYoff (winSize i : ℕ) : ℕ := i - halo winSize

/-- First output row written by the block starting at `i` (lines 127-131). -/
def writeStart (winSize i : ℕ) : ℕ :=
  if blockYoff winSize i = 0 then 0 else blockYoff winSize i + halo winSize

/-- Number of output rows written by the block starting at `i` (lines 127-131):
the whole array when `yoff == 0`, else `out_data[extra_lines:]`. -/
def writeCount (winSize blkRows ysize i : ℕ) : ℕ :=
  if blockYoff winSize i = 0 then blockRows winSize blkRows ysize i
  else blockRows winSize blkRows ysize i - halo winSize

/-- The coverage property claimed of the write plan: every output row in
`[0, ysize)` lies in exactly one planned write range. -/
def coveredExactlyOnce (winSize blkRows ysize : ℕ) : Prop :=
  ∀ r, r < ysize →
    ((blockStarts blkRows ysize).countP
      (fun i => decide (writeStart winSize i ≤ r ∧
        r < writeStart winSize i + writeCount winSize blkRows ysize i))) = 1

instance (winSize blkRows ysize : ℕ) :
    Decidable (coveredExactlyOnce winSize blkRows ysize) := by
  unfold coveredExactlyOnce; exact inferInstance

/-- Zero padding outside the array, i.e. `mode="constant", cval=0`
(lines 110-112 and 117-119). -/
def padded (nrows ncols : ℕ) (f : ℤ → ℤ → ℚ) (r c : ℤ) : ℚ :=
  if 0 ≤ r ∧ r < (nrows : ℤ) ∧ 0 ≤ c ∧ c < (ncols : ℤ) then f r c else 0

/-- `scipy.ndimage.filters.uniform_filter(a, size=win_size, mode="constant",
cval=0)` for odd `win_size`: mean of the centered `win_size × win_size`
window, zero-padded outside the array. -/
def uniformFilter (winSize nrows ncols : ℕ) (f : ℤ → ℤ → ℚ) (r c : ℤ) : ℚ :=
  (∑ dr ∈ Finset.Icc (-(halo winSize : ℤ)) (halo winSize : ℤ),
    ∑ dc ∈ Finset.Icc (-(halo winSize : ℤ)) (halo winSize : ℤ),
      padded nrows ncols f (r + dr) (c + dc)) / (winSize ^ 2 : ℚ)

/-- `defor_data` (lines 108-109): 1 where `in_data == 1`, else 0. -/
def deforData (inData : ℤ → ℤ → ℤ) (r c : ℤ) : ℚ := if inData r c = 1 then 1 else 0

/-- `for_data` (lines 114-116): 1 where `in_data > 0`, else 0. -/
def forData (inData : ℤ → ℤ → ℤ) (r c : ℤ) : ℚ := if 0 < inData r c then 1 else 0

/-- `win_defor` (lines 110-112). -/
def winDefor (winSize nrows ncols : ℕ) (inData : ℤ → ℤ → ℤ) : ℤ → ℤ → ℚ :=
  uniformFilter winSize nrows ncols (deforData inData)

/-- `win_for` (lines 117-119). -/
def winFor (winSize nrows ncols : ℕ) (inData : ℤ → ℤ → ℤ) : ℤ → ℤ → ℚ :=
  uniformFilter winSize nrows ncols (forData inData)

/-- Spec-side description of the focal density (the claim compares the code's
filter with it): the number of 1-valued cells of the centered window that lie
inside the array. -/
def windowOnesCount (winSize nrows ncols : ℕ) (f : ℤ → ℤ → ℚ) (r c : ℤ) : ℕ :=
  (((Finset.Icc (-(halo winSize : ℤ)) (halo winSize : ℤ)) ×ˢ
    (Finset.Icc (-(halo winSize : ℤ)) (halo winSize : ℤ))).filter
    (fun p => (0 ≤ r + p.1 ∧ r + p.1 < (nrows : ℤ) ∧
               0 ≤ c + p.2 ∧ c + p.2 < (ncols : ℤ)) ∧
              f (r + p.1) (c + p.2) = 1)).card

/-- `np.rint`: round to nearest integer, ties to even. -/
noncomputable def rint (x : ℝ) : ℤ :=
  if Int.fract x < 1 / 2 then ⌊x⌋
  else if 1 / 2 < Int.fract x then ⌊x⌋ + 1
  else if 2 ∣ ⌊x⌋ then ⌊x⌋ else ⌊x⌋ + 1

/-- Lines 124-125: `np.rint(10000 * (1 - (1 - p) ** time_interval))`, with the
real-exponent power `Real.rpow`. -/
noncomputable def rateCode (timeInterval : ℝ) (p : ℚ) : ℤ :=
  rint (10000 * (1 - (1 - (p : ℝ)) ^ timeInterval))

/-- Lines 121-125: the per-block output array.  `out_data` starts at 65535 and
cells of `w = np.where(in_data > 0)` receive the quantized rate. -/
noncomputable def outData (winSize nrows ncols : ℕ) (timeInterval : ℝ)
    (inData : ℤ → ℤ → ℤ) (r c : ℤ) : ℤ :=
  if 0 < inData r c then
    rateCode timeInterval
      (winDefor winSize nrows ncols inData r c / winFor winSize nrows ncols inData r c)
  else 65535

/-- The data read for one block (line 106): rows `yoff, yoff+1, …` of the grid. -/
def blockIn (grid : ℤ → ℤ → ℤ) (yoff : ℕ) : ℤ → ℤ → ℤ :=
  fun r c => grid ((yoff : ℤ) + r) c

/-- The processed output array of the block starting at nominal row `i`. -/
noncomputable def blockOut (winSize blkRows ysize xsize : ℕ) (timeInterval : ℝ)
    (grid : ℤ → ℤ → ℤ) (i : ℕ) : ℤ → ℤ → ℤ :=
  outData winSize (blockRows winSize blkRows ysize i) xsize timeInterval
    (blockIn grid (blockYoff winSize i))

/-- One `WriteArray` call (lines 127-131): rows in the planned write range get
the block's values (global row `r` receives block row `r - yoff`), other rows
keep their previous contents. -/
noncomputable def writeStep (winSize blkRows ysize xsize : ℕ) (timeInterval : ℝ)
    (grid : ℤ → ℤ → ℤ) (g : ℤ → ℤ → ℤ) (i : ℕ) : ℤ → ℤ → ℤ :=
  fun r c =>
    if (writeStart winSize i : ℤ) ≤ r ∧
        r < (writeStart winSize i : ℤ) + (writeCount winSize blkRows ysize i : ℤ) then
      blockOut winSize blkRows ysize xsize timeInterval grid i
        (r - (blockYoff winSize i : ℤ)) c
    else g r c

/-- The Output Grid after the sequential block loop (lines 86-131), later
writes overwriting earlier ones. -/
noncomputable def assembled (winSize blkRows ysize xsize : ℕ) (timeInterval : ℝ)
    (grid : ℤ → ℤ → ℤ) : ℤ → ℤ → ℤ :=
  (blockStarts blkRows ysize).foldl
    (writeStep winSize blkRows ysize xsize timeInterval grid) (fun _ _ => 0)

/-- The same mask/filter/rate pipeline applied to the whole grid in one pass
(no blocking): the reference for the blocking-transparency claim. -/
noncomputable def wholeOut (winSize ysize xsize : ℕ) (timeInterval : ℝ)
    (grid : ℤ → ℤ → ℤ) : ℤ → ℤ → ℤ :=
  outData winSize ysize xsize timeInterval grid

/-- The whole operation with its parameter validation (lines 57-63): `none`
models the early `return None` before any raster is opened. -/
noncomputable def localDeforRate (winSize blkRows ysize xsize : ℕ)
    (timeInterval : ℝ) (grid : ℤ → ℤ → ℤ) : Option (ℤ → ℤ → ℤ) :=
  if winSize % 2 = 0 then none
  else if blkRows < winSize then none
  else some (assembled winSize blkRows ysize xsize timeInterval grid)

/-- Concrete 1 × 2 block used as a counterexample input: class 3 (forest) at
column 0, no-data at column 1. -/
def cexGrid : ℤ → ℤ → ℤ := fun r c => if r = 0 ∧ c = 0 then 3 else 0

/-! ## Helper lemmas for the write plan -/

theorem writes_of_between (w b y i r : ℕ) (hww : w % 2 = 1) (hwb : w ≤ b)
    (hi1 : i ≤ r) (hi2 : r < i + b) (hr : r < y) :
    writeStart w i ≤ r ∧ r < writeStart w i + writeCount w b y i := by
  unfold writeStart writeCount blockRows blockYoff halo
  split_ifs <;> omega

theorem div_mul_mem_blockStarts (b y r : ℕ) (hb : 0 < b) (hr : r < y) :
    (r / b) * b ∈ blockStarts b y := by
  unfold blockStarts numBlocks
  refine List.mem_map.mpr ⟨r / b, List.mem_range.mpr ?_, rfl⟩
  have h1 : r / b ≤ (y - 1) / b := Nat.div_le_div_right (by omega)
  have h2 : y + b - 1 = (y - 1) + b := by omega
  rw [h2, Nat.add_div_right _ hb]
  omega

theorem div_mul_le_self_nat (b r : ℕ) : (r / b) * b ≤ r := Nat.div_mul_le_self r b

theorem lt_div_mul_add (b r : ℕ) (hb : 0 < b) : r < (r / b) * b + b := by
  have h := (Nat.div_lt_iff_lt_mul hb).mp (Nat.lt_succ_self (r / b))
  calc r < (r / b + 1) * b := h
    _ = (r / b) * b + b := by ring

theorem div_mul_zero_or_ge (b r : ℕ) : (r / b) * b = 0 ∨ b ≤ (r / b) * b := by
  rcases Nat.eq_zero_or_pos (r / b) with h | h
  · exact Or.inl (by rw [h, Nat.zero_mul])
  · exact Or.inr (Nat.le_mul_of_pos_left b h)

/-! ## C1 -/

/-- C1 (counterexample): with `ysize = 12`, `blk_rows = 4`, `win_size = 3`
(a valid configuration), the planned write ranges do NOT cover each output
row exactly once: rows in the bottom halo of a non-final block are written
twice. -/
theorem C1_counterexample :
    (3 % 2 = 1 ∧ 3 ≤ 4 ∧ 1 ≤ 12) ∧ ¬ coveredExactlyOnce 3 4 12 := by decide

/-- C1 (amended): for every valid configuration, the planned write ranges
cover every Output Grid row in `[0, ysize)` — no gaps — though not exactly
once: some rows lie in the ranges of two consecutive blocks. -/
theorem C1_coverage (w b y : ℕ) (hww : w % 2 = 1) (hwb : w ≤ b) (hy : 1 ≤ y) :
    ∀ r, r < y → ∃ i ∈ blockStarts b y,
      writeStart w i ≤ r ∧ r < writeStart w i + writeCount w b y i := by
  intro r hr
  have hb : 0 < b := by omega
  refine ⟨(r / b) * b, div_mul_mem_blockStarts b y r hb hr, ?_⟩
  exact writes_of_between w b y _ r hww hwb (div_mul_le_self_nat b r)
    (lt_div_mul_add b r hb) hr

/-- C1 (witness): the coverage theorem applied at a concrete configuration
and row. -/
theorem C1_coverage_witness :
    3 % 2 = 1 ∧ 3 ≤ 4 ∧ 1 ≤ 12 ∧
      (∃ i ∈ blockStarts 4 12, writeStart 3 i ≤ 5 ∧
        5 < writeStart 3 i + writeCount 3 4 12 i) :=
  ⟨rfl, by decide, by decide, C1_coverage 3 4 12 rfl (by decide) (by decide) 5 (by decide)⟩

/-! ## C3 -/

/-- C3 (failing input): with `ysize = 3`, `blk_rows = 3`, `win_size = 3`
(valid configuration, single block, first block also last), the planned read
has `yoff = 0` and `rows = 4`, so `yoff + rows = 4 > ysize = 3`: the block
read exceeds the grid, contradicting the claimed clamping. -/
theorem C3_first_last_read_overflow :
    (3 % 2 = 1 ∧ 3 ≤ 3 ∧ 1 ≤ 3) ∧ blockStarts 3 3 = [0] ∧
      blockYoff 3 0 = 0 ∧ blockRows 3 3 3 0 = 4 ∧
      3 < blockYoff 3 0 + blockRows 3 3 3 0 := by decide

/-! ## Helper lemmas for the focal filter -/

theorem padded_nonneg (n m : ℕ) (f : ℤ → ℤ → ℚ) (hf : ∀ a b, 0 ≤ f a b)
    (r c : ℤ) : 0 ≤ padded n m f r c := by
  unfold padded; split
  · exact hf _ _
  · exact le_refl 0

theorem padded_mono (n m : ℕ) (f g : ℤ → ℤ → ℚ) (hfg : ∀ a b, f a b ≤ g a b)
    (r c : ℤ) : padded n m f r c ≤ padded n m g r c := by
  unfold padded; split
  · exact hfg _ _
  · exact le_refl 0

theorem forData_nonneg (inData : ℤ → ℤ → ℤ) (a b : ℤ) : 0 ≤ forData inData a b := by
  unfold forData; split <;> norm_num

theorem deforData_nonneg (inData : ℤ → ℤ → ℤ) (a b : ℤ) :
    0 ≤ deforData inData a b := by
  unfold deforData; split <;> norm_num

theorem deforData_le_forData (inData : ℤ → ℤ → ℤ) (a b : ℤ) :
    deforData inData a b ≤ forData inData a b := by
  unfold deforData forData
  split
  · rw [if_pos (by omega)]
  · split <;> norm_num

theorem window_sum_nonneg (w n m : ℕ) (f : ℤ → ℤ → ℚ) (hf : ∀ a b, 0 ≤ f a b)
    (r c : ℤ) :
    0 ≤ ∑ dr ∈ Finset.Icc (-(halo w : ℤ)) (halo w : ℤ),
      ∑ dc ∈ Finset.Icc (-(halo w : ℤ)) (halo w : ℤ),
        padded n m f (r + dr) (c + dc) :=
  Finset.sum_nonneg fun _ _ =>
    Finset.sum_nonneg fun _ _ => padded_nonneg n m f hf _ _

theorem uniformFilter_nonneg (w n m : ℕ) (f : ℤ → ℤ → ℚ)
    (hf : ∀ a b, 0 ≤ f a b) (r c : ℤ) : 0 ≤ uniformFilter w n m f r c := by
  unfold uniformFilter
  apply div_nonneg (window_sum_nonneg w n m f hf r c)
  positivity

theorem uniformFilter_mono (w n m : ℕ) (f g : ℤ → ℤ → ℚ)
    (hfg : ∀ a b, f a b ≤ g a b) (r c : ℤ) :
    uniformFilter w n m f r c ≤ uniformFilter w n m g r c := by
  unfold uniformFilter
  have hnum : (∑ dr ∈ Finset.Icc (-(halo w : ℤ)) (halo w : ℤ),
      ∑ dc ∈ Finset.Icc (-(halo w : ℤ)) (halo w : ℤ),
        padded n m f (r + dr) (c + dc)) ≤
      ∑ dr ∈ Finset.Icc (-(halo w : ℤ)) (halo w : ℤ),
      ∑ dc ∈ Finset.Icc (-(halo w : ℤ)) (halo w : ℤ),
        padded n m g (r + dr) (c + dc) :=
    Finset.sum_le_sum fun _ _ =>
      Finset.sum_le_sum fun _ _ => padded_mono n m f g hfg _ _
  rcases Nat.eq_zero_or_pos w with hw | hw
  · subst hw; norm_num
  · have hsq : (0:ℚ) < (w ^ 2 : ℚ) := by
      have : (0:ℚ) < (w : ℚ) := by exact_mod_cast hw
      positivity
    exact (div_le_div_iff_of_pos_right hsq).mpr hnum

theorem zero_mem_window (w : ℕ) :
    (0:ℤ) ∈ Finset.Icc (-(halo w : ℤ)) (halo w : ℤ) :=
  Finset.mem_Icc.mpr ⟨neg_nonpos.mpr (Int.natCast_nonneg _), Int.natCast_nonneg _⟩

theorem winFor_ge_center (w n m : ℕ) (inData : ℤ → ℤ → ℤ) (r c : ℤ) (hw : 1 ≤ w)
    (hr0 : 0 ≤ r) (hrn : r < (n : ℤ)) (hc0 : 0 ≤ c) (hcm : c < (m : ℤ))
    (hpos : 0 < inData r c) :
    1 / (w ^ 2 : ℚ) ≤ winFor w n m inData r c := by
  unfold winFor uniformFilter
  have hsq : (0:ℚ) < (w ^ 2 : ℚ) := by
    have : (0:ℚ) < (w : ℚ) := by exact_mod_cast hw
    positivity
  rw [div_le_div_iff_of_pos_right hsq]
  have hcenter : padded n m (forData inData) (r + 0) (c + 0) = 1 := by
    rw [add_zero, add_zero]
    unfold padded forData
    rw [if_pos ⟨hr0, hrn, hc0, hcm⟩, if_pos hpos]
  have hinner : 1 ≤ ∑ dc ∈ Finset.Icc (-(halo w : ℤ)) (halo w : ℤ),
      padded n m (forData inData) (r + 0) (c + dc) := by
    rw [← hcenter]
    exact Finset.single_le_sum
      (fun dc _ => padded_nonneg n m (forData inData) (forData_nonneg inData) _ _)
      (zero_mem_window w)
  calc (1:ℚ) ≤ ∑ dc ∈ Finset.Icc (-(halo w : ℤ)) (halo w : ℤ),
      padded n m (forData inData) (r + 0) (c + dc) := hinner
    _ ≤ ∑ dr ∈ Finset.Icc (-(halo w : ℤ)) (halo w : ℤ),
        ∑ dc ∈ Finset.Icc (-(halo w : ℤ)) (halo w : ℤ),
          padded n m (forData inData) (r + dr) (c + dc) :=
      Finset.single_le_sum
        (fun dr _ => Finset.sum_nonneg fun dc _ =>
          padded_nonneg n m (forData inData) (forData_nonneg inData) _ _)
        (zero_mem_window w)

/-! ## C4, C6, C8 -/

/-- C4: at every in-bounds cell whose ever-forested focal density `win_for`
is zero, the output is exactly the sentinel 65535, whatever `win_defor` is
there; the zero-forest case maps to the sentinel, never to an error (the
model is a total function). -/
theorem C4_zero_forest_sentinel (w n m : ℕ) (timeInterval : ℝ)
    (inData : ℤ → ℤ → ℤ) (r c : ℤ) (hww : w % 2 = 1)
    (hr0 : 0 ≤ r) (hrn : r < (n : ℤ)) (hc0 : 0 ≤ c) (hcm : c < (m : ℤ))
    (h0 : winFor w n m inData r c = 0) :
    outData w n m timeInterval inData r c = 65535 := by
  unfold outData
  rw [if_neg]
  intro hpos
  have h1 : 1 / (w ^ 2 : ℚ) ≤ winFor w n m inData r c :=
    winFor_ge_center w n m inData r c (by omega) hr0 hrn hc0 hcm hpos
  have hsq : (0:ℚ) < (w ^ 2 : ℚ) := by
    have : (0:ℚ) < (w : ℚ) := by exact_mod_cast (by omega : 0 < w)
    positivity
  rw [h0] at h1
  have : (0:ℚ) < 1 / (w ^ 2 : ℚ) := by positivity
  linarith

/-- C4 (witness): applied to a 1×1 block that is all no-data, where the
focal forested density is 0. -/
theorem C4_zero_forest_sentinel_witness :
    winFor 3 1 1 (fun _ _ => 0) 0 0 = 0 ∧
      outData 3 1 1 1 (fun _ _ => 0) 0 0 = 65535 := by
  have h0 : winFor 3 1 1 (fun _ _ => 0) 0 0 = 0 := by
    unfold winFor uniformFilter
    have h : (halo 3 : ℤ) = 1 := by decide
    rw [h, show Finset.Icc (-1:ℤ) 1 = {-1, 0, 1} from by decide]
    simp [Finset.sum_insert, padded, forData]
  exact ⟨h0, C4_zero_forest_sentinel 3 1 1 1 (fun _ _ => 0) 0 0 (by decide)
    (by decide) (by decide) (by decide) (by decide) h0⟩

/-- C6: for every binary mask and odd window size, the focal density equals
(number of 1-valued cells of the centered window lying inside the array)
divided by the full `win_size²` denominator — zero padding, never a
renormalized in-bounds-only denominator. -/
theorem C6_focal_density (w n m : ℕ) (f : ℤ → ℤ → ℚ)
    (hbin : ∀ a b : ℤ, f a b = 0 ∨ f a b = 1) (hww : w % 2 = 1) (r c : ℤ) :
    uniformFilter w n m f r c = (windowOnesCount w n m f r c : ℚ) / (w ^ 2 : ℚ) := by
  unfold uniformFilter windowOnesCount
  rw [← Finset.sum_product', ← Finset.sum_boole]
  congr 1
  apply Finset.sum_congr rfl
  intro p _
  unfold padded
  rcases hbin (r + p.1) (c + p.2) with h | h
  · rw [h]
    simp [h]
  · rw [h]
    by_cases hin : 0 ≤ r + p.1 ∧ r + p.1 < (n:ℤ) ∧ 0 ≤ c + p.2 ∧ c + p.2 < (m:ℤ)
    · rw [if_pos hin, if_pos ⟨hin, rfl⟩]
    · rw [if_neg hin, if_neg (fun hc => hin hc.1)]

/-- C6 (witness): applied to the all-ones mask on a 1×1 array with a 3×3
window. -/
theorem C6_focal_density_witness :
    (∀ a b : ℤ, (fun (_ _ : ℤ) => (1:ℚ)) a b = 0 ∨ (fun (_ _ : ℤ) => (1:ℚ)) a b = 1) ∧
      3 % 2 = 1 ∧
      uniformFilter 3 1 1 (fun _ _ => (1:ℚ)) 0 0 =
        (windowOnesCount 3 1 1 (fun _ _ => (1:ℚ)) 0 0 : ℚ) / (3 ^ 2 : ℚ) :=
  ⟨fun _ _ => Or.inr rfl, rfl,
    C6_focal_density 3 1 1 (fun _ _ => (1:ℚ)) (fun _ _ => Or.inr rfl) rfl 0 0⟩

/-- C8: on any input block (in particular one with values in {0,1,2,3}), at
every in-bounds cell selected for the rate computation (`in_data > 0`) the
denominator `win_for` is at least `1/win_size²` — the selected cell itself
contributes to the forest count — hence strictly positive: the division is
never a division by zero. -/
theorem C8_guarded_division (w n m : ℕ) (inData : ℤ → ℤ → ℤ)
    (hdom : ∀ a b : ℤ, 0 ≤ inData a b ∧ inData a b ≤ 3) (r c : ℤ)
    (hww : w % 2 = 1) (hr0 : 0 ≤ r) (hrn : r < (n : ℤ))
    (hc0 : 0 ≤ c) (hcm : c < (m : ℤ)) (hsel : 0 < inData r c) :
    1 / (w ^ 2 : ℚ) ≤ winFor w n m inData r c ∧ 0 < winFor w n m inData r c := by
  have h1 := winFor_ge_center w n m inData r c (by omega) hr0 hrn hc0 hcm hsel
  refine ⟨h1, lt_of_lt_of_le ?_ h1⟩
  have hw0 : (0:ℚ) < (w:ℚ) := by exact_mod_cast (by omega : 0 < w)
  positivity

/-- C8 (witness): applied to the all-forest block. -/
theorem C8_guarded_division_witness :
    (∀ a b : ℤ, 0 ≤ (fun (_ _ : ℤ) => (3:ℤ)) a b ∧ (fun (_ _ : ℤ) => (3:ℤ)) a b ≤ 3) ∧
      (0:ℤ) < 3 ∧
      (1 / (3 ^ 2 : ℚ) ≤ winFor 3 1 1 (fun _ _ => 3) 0 0 ∧
        0 < winFor 3 1 1 (fun _ _ => 3) 0 0) :=
  ⟨fun _ _ => ⟨by norm_num, by norm_num⟩, by norm_num,
    C8_guarded_division 3 1 1 (fun _ _ => 3) (fun _ _ => ⟨by norm_num, by norm_num⟩)
      0 0 rfl (by norm_num) (by norm_num) (by norm_num) (by norm_num) (by norm_num)⟩

/-! ## Helper lemmas for rounding and the rate transform -/

theorem rint_intCast (k : ℤ) : rint (k : ℝ) = k := by
  unfold rint
  rw [Int.fract_intCast, if_pos (by norm_num), Int.floor_intCast]

theorem floor_le_rint (x : ℝ) : ⌊x⌋ ≤ rint x := by
  unfold rint; split_ifs <;> omega

theorem rint_nonneg (x : ℝ) (h : 0 ≤ x) : 0 ≤ rint x := by
  have h0 : 0 ≤ ⌊x⌋ := Int.floor_nonneg.mpr h
  have h1 := floor_le_rint x
  omega

theorem rint_le_intCast (x : ℝ) (k : ℤ) (h : x ≤ (k : ℝ)) : rint x ≤ k := by
  have hf : ⌊x⌋ ≤ k := by
    calc ⌊x⌋ ≤ ⌊(k : ℝ)⌋ := Int.floor_le_floor h
      _ = k := Int.floor_intCast k
  by_cases h1 : Int.fract x < 1 / 2
  · unfold rint; rw [if_pos h1]; exact hf
  · have hge : (1:ℝ) / 2 ≤ Int.fract x := le_of_not_lt h1
    have hlt : ⌊x⌋ < k := by
      rcases eq_or_lt_of_le hf with he | hl
      · exfalso
        have hsub : x - (⌊x⌋ : ℝ) = Int.fract x := Int.self_sub_floor x
        rw [he] at hsub
        linarith
      · exact hl
    unfold rint
    split_ifs <;> omega

theorem rat_div_nonneg_le_one (d f : ℚ) (h0 : 0 ≤ d) (hdf : d ≤ f) :
    0 ≤ d / f ∧ d / f ≤ 1 := by
  rcases le_or_lt f 0 with hf | hf
  · have hd0 : d = 0 := le_antisymm (hdf.trans hf) h0
    rcases eq_or_lt_of_le hf with hf0 | hf0
    · rw [hd0, hf0]
      norm_num
    · rw [hd0, zero_div]
      norm_num
  · exact ⟨div_nonneg h0 hf.le, (div_le_one hf).mpr hdf⟩

theorem rateCode_bounds (timeInterval : ℝ) (hT : 0 ≤ timeInterval) (p : ℚ)
    (h0 : 0 ≤ p) (h1 : p ≤ 1) :
    0 ≤ rateCode timeInterval p ∧ rateCode timeInterval p ≤ 10000 := by
  unfold rateCode
  have hb0 : (0:ℝ) ≤ 1 - (p : ℝ) := by
    have : (p : ℝ) ≤ 1 := by exact_mod_cast h1
    linarith
  have hb1 : (1 : ℝ) - (p : ℝ) ≤ 1 := by
    have : (0:ℝ) ≤ (p : ℝ) := by exact_mod_cast h0
    linarith
  have hp0 : 0 ≤ (1 - (p : ℝ)) ^ timeInterval := Real.rpow_nonneg hb0 _
  have hp1 : (1 - (p : ℝ)) ^ timeInterval ≤ 1 := Real.rpow_le_one hb0 hb1 hT
  constructor
  · exact rint_nonneg _ (by nlinarith)
  · apply rint_le_intCast
    push_cast
    nlinarith

theorem winDefor_le_winFor (w n m : ℕ) (inData : ℤ → ℤ → ℤ) (r c : ℤ) :
    winDefor w n m inData r c ≤ winFor w n m inData r c :=
  uniformFilter_mono w n m (deforData inData) (forData inData)
    (deforData_le_forData inData) r c

theorem winDefor_nonneg (w n m : ℕ) (inData : ℤ → ℤ → ℤ) (r c : ℤ) :
    0 ≤ winDefor w n m inData r c :=
  uniformFilter_nonneg w n m (deforData inData) (deforData_nonneg inData) r c

theorem outData_bounds_of_selected (w n m : ℕ) (timeInterval : ℝ)
    (hT : 0 ≤ timeInterval) (inData : ℤ → ℤ → ℤ) (r c : ℤ)
    (hsel : 0 < inData r c) :
    0 ≤ outData w n m timeInterval inData r c ∧
      outData w n m timeInterval inData r c ≤ 10000 := by
  unfold outData
  rw [if_pos hsel]
  have hp := rat_div_nonneg_le_one (winDefor w n m inData r c)
    (winFor w n m inData r c) (winDefor_nonneg w n m inData r c)
    (winDefor_le_winFor w n m inData r c)
  exact rateCode_bounds timeInterval hT _ hp.1 hp.2

/-! ## C9, C2, C5, C7 -/

/-- C9: on any block with values in {0,1,2,3}, every output cell is either
the sentinel 65535 or a rate code in `[0, 10000]`: `win_defor ≤ win_for`
pointwise (the deforested mask is below the ever-forested mask and the focal
mean is monotone), so `p ∈ [0,1]`, the rate is in `[0,1]`, and the rounded
scaled code is in `[0, 10000]`. -/
theorem C9_output_range (w n m : ℕ) (timeInterval : ℝ) (hT : 0 ≤ timeInterval)
    (inData : ℤ → ℤ → ℤ) (hdom : ∀ a b : ℤ, 0 ≤ inData a b ∧ inData a b ≤ 3)
    (r c : ℤ) :
    outData w n m timeInterval inData r c = 65535 ∨
      (0 ≤ outData w n m timeInterval inData r c ∧
        outData w n m timeInterval inData r c ≤ 10000) := by
  by_cases hsel : 0 < inData r c
  · exact Or.inr (outData_bounds_of_selected w n m timeInterval hT inData r c hsel)
  · left; unfold outData; rw [if_neg hsel]

/-- C9 (witness): applied to the all-forest block. -/
theorem C9_output_range_witness :
    (0:ℝ) ≤ 1 ∧
      (∀ a b : ℤ, 0 ≤ (fun (_ _ : ℤ) => (3:ℤ)) a b ∧ (fun (_ _ : ℤ) => (3:ℤ)) a b ≤ 3) ∧
      (outData 3 1 1 1 (fun _ _ => 3) 0 0 = 65535 ∨
        (0 ≤ outData 3 1 1 1 (fun _ _ => 3) 0 0 ∧
          outData 3 1 1 1 (fun _ _ => 3) 0 0 ≤ 10000)) :=
  ⟨by norm_num, fun _ _ => ⟨by norm_num, by norm_num⟩,
    C9_output_range 3 1 1 1 (by norm_num) (fun _ _ => 3)
      (fun _ _ => ⟨by norm_num, by norm_num⟩) 0 0⟩

/-- C2 (counterexample): in a 1×2 block with class 3 at column 0 and no-data
at column 1, the cell at column 1 has strictly positive ever-forested focal
density `win_for = 1/9 > 0`, yet its output is the sentinel 65535: the code
keys definedness on the cell's own input class (`in_data > 0`), not on
`win_for > 0`. -/
theorem C2_counterexample :
    0 < winFor 3 1 2 cexGrid 0 1 ∧ outData 3 1 2 1 cexGrid 0 1 = 65535 := by
  constructor
  · have hval : winFor 3 1 2 cexGrid 0 1 = 1 / 9 := by
      unfold winFor uniformFilter
      rw [show (halo 3 : ℤ) = 1 from by decide,
        show Finset.Icc (-1:ℤ) 1 = {-1, 0, 1} from by decide]
      simp [Finset.sum_insert, padded, forData, cexGrid]
      norm_num
    rw [hval]; norm_num
  · have h : cexGrid 0 1 = 0 := by simp [cexGrid]
    unfold outData
    rw [h]
    norm_num

/-- C2 (amended): definedness of an output cell is decided by the cell's own
input class: the output is a defined (non-sentinel) rate code iff the cell's
input value is positive.  (Since a positive cell contributes to its own
window, such cells still have `win_for > 0`, but a cell of class 0 gets the
sentinel even when `win_for > 0` there.) -/
theorem C2_defined_iff_cell_class (w n m : ℕ) (timeInterval : ℝ)
    (hT : 0 ≤ timeInterval) (inData : ℤ → ℤ → ℤ) (r c : ℤ) :
    outData w n m timeInterval inData r c ≠ 65535 ↔ 0 < inData r c := by
  constructor
  · intro hne
    by_contra hsel
    apply hne
    unfold outData
    rw [if_neg hsel]
  · intro hsel
    have hb := outData_bounds_of_selected w n m timeInterval hT inData r c hsel
    omega

/-- C2 (witness): the amended theorem applied to the all-forest block. -/
theorem C2_defined_iff_cell_class_witness :
    (0:ℝ) ≤ 1 ∧
      (outData 3 1 1 1 (fun _ _ => 3) 0 0 ≠ 65535 ↔ (0:ℤ) < 3) :=
  ⟨by norm_num, C2_defined_iff_cell_class 3 1 1 1 (by norm_num) (fun _ _ => 3) 0 0⟩

/-- C5: wherever the output is a defined (non-sentinel) code, it equals
`rint(10000·(1 - (1 - win_defor/win_for) ^ time_interval))` with real
exponentiation (`Real.rpow`, so non-integer intervals are supported, and
rounding is `np.rint`, ties to even); `p = 0` yields code 0 and `p = 1`
yields code 10000. -/
theorem C5_rate_formula (w n m : ℕ) (timeInterval : ℝ) (hT : 0 < timeInterval)
    (inData : ℤ → ℤ → ℤ) (r c : ℤ) :
    (outData w n m timeInterval inData r c ≠ 65535 →
      outData w n m timeInterval inData r c =
        rint (10000 * (1 - (1 - ((winDefor w n m inData r c /
          winFor w n m inData r c : ℚ) : ℝ)) ^ timeInterval))) ∧
      rateCode timeInterval 0 = 0 ∧ rateCode timeInterval 1 = 10000 := by
  refine ⟨?_, ?_, ?_⟩
  · intro hne
    by_cases hsel : 0 < inData r c
    · unfold outData
      rw [if_pos hsel]
      rfl
    · exfalso
      apply hne
      unfold outData
      rw [if_neg hsel]
  · unfold rateCode
    have h0 : ((0:ℚ):ℝ) = 0 := by norm_num
    rw [h0, sub_zero, Real.one_rpow,
      show (10000:ℝ) * (1 - 1) = ((0:ℤ):ℝ) from by norm_num, rint_intCast]
  · unfold rateCode
    have h1 : (1:ℝ) - ((1:ℚ):ℝ) = 0 := by norm_num
    rw [h1, Real.zero_rpow (ne_of_gt hT),
      show (10000:ℝ) * (1 - 0) = ((10000:ℤ):ℝ) from by norm_num, rint_intCast]

/-- C5 (witness): the formula theorem applied with `time_interval = 1` on the
all-forest block. -/
theorem C5_rate_formula_witness :
    (0:ℝ) < 1 ∧
      ((outData 3 1 1 1 (fun _ _ => 3) 0 0 ≠ 65535 →
        outData 3 1 1 1 (fun _ _ => 3) 0 0 =
          rint (10000 * (1 - (1 - ((winDefor 3 1 1 (fun _ _ => 3) 0 0 /
            winFor 3 1 1 (fun _ _ => 3) 0 0 : ℚ) : ℝ)) ^ (1:ℝ)))) ∧
        rateCode 1 0 = 0 ∧ rateCode 1 1 = 10000) :=
  ⟨by norm_num, C5_rate_formula 3 1 1 1 (by norm_num) (fun _ _ => 3) 0 0⟩

/-- C7: an even `win_size`, or `win_size > blk_rows`, is rejected up front:
the operation returns no output grid, and its result does not depend on the
input grid at all (no read can influence it, no write is produced). -/
theorem C7_invalid_config_rejected (w b y x : ℕ) (timeInterval : ℝ)
    (hbad : w % 2 = 0 ∨ b < w) (grid grid' : ℤ → ℤ → ℤ) :
    localDeforRate w b y x timeInterval grid = none ∧
      localDeforRate w b y x timeInterval grid =
        localDeforRate w b y x timeInterval grid' := by
  have hnone : ∀ g : ℤ → ℤ → ℤ, localDeforRate w b y x timeInterval g = none := by
    intro g
    unfold localDeforRate
    by_cases h2 : w % 2 = 0
    · rw [if_pos h2]
    · rw [if_neg h2, if_pos (by tauto)]
  rw [hnone grid, hnone grid']
  exact ⟨rfl, rfl⟩

/-- C7 (witness): `win_size = 4 > blk_rows = 3` (also even) is rejected. -/
theorem C7_invalid_config_rejected_witness :
    (4 % 2 = 0 ∨ 3 < 4) ∧ localDeforRate 4 3 5 5 1 (fun _ _ => 3) = none :=
  ⟨Or.inl rfl,
    (C7_invalid_config_rejected 4 3 5 5 1 (Or.inl rfl)
      (fun _ _ => 3) (fun _ _ => 0)).1⟩

/-! ## Helper lemmas for block assembly (C10) -/

theorem writeStep_hit (w b y x : ℕ) (T : ℝ) (grid g : ℤ → ℤ → ℤ) (i : ℕ)
    (r c : ℤ) (h1 : (writeStart w i : ℤ) ≤ r)
    (h2 : r < (writeStart w i : ℤ) + (writeCount w b y i : ℤ)) :
    writeStep w b y x T grid g i r c =
      blockOut w b y x T grid i (r - (blockYoff w i : ℤ)) c := by
  unfold writeStep; rw [if_pos ⟨h1, h2⟩]

theorem writeStep_miss (w b y x : ℕ) (T : ℝ) (grid g : ℤ → ℤ → ℤ) (i : ℕ)
    (r c : ℤ)
    (h : ¬ ((writeStart w i : ℤ) ≤ r ∧
      r < (writeStart w i : ℤ) + (writeCount w b y i : ℤ))) :
    writeStep w b y x T grid g i r c = g r c := by
  unfold writeStep; rw [if_neg h]

theorem writeStart_of_ge (w b i : ℕ) (hww : w % 2 = 1) (hwb : w ≤ b)
    (hbi : b ≤ i) : writeStart w i = i := by
  unfold writeStart blockYoff halo
  split_ifs <;> omega

theorem div_lt_numBlocks (b y r : ℕ) (hb : 0 < b) (hr : r < y) :
    r / b < numBlocks b y := by
  unfold numBlocks
  have h1 : r / b ≤ (y - 1) / b := Nat.div_le_div_right (by omega)
  have h2 : y + b - 1 = (y - 1) + b := by omega
  rw [h2, Nat.add_div_right _ hb]
  omega

theorem foldl_writeStep_eval (w b y x : ℕ) (T : ℝ) (grid : ℤ → ℤ → ℤ)
    (rn q : ℕ) (c : ℤ) (hww : w % 2 = 1) (hwb : w ≤ b) (hry : rn < y)
    (hq1 : q * b ≤ rn) (hq2 : rn < q * b + b) :
    ∀ (mm : ℕ) (g0 : ℤ → ℤ → ℤ), q < mm →
      List.foldl (writeStep w b y x T grid) g0
          ((List.range mm).map (fun k => k * b)) (rn : ℤ) c =
        blockOut w b y x T grid (q * b)
          ((rn : ℤ) - (blockYoff w (q * b) : ℤ)) c := by
  have hb : 0 < b := by omega
  intro mm
  induction mm with
  | zero => intro g0 h; exact absurd h (Nat.not_lt_zero q)
  | succ m ih =>
    intro g0 hlt
    rw [List.range_succ, List.map_append, List.foldl_append]
    simp only [List.map_cons, List.map_nil, List.foldl_cons, List.foldl_nil]
    by_cases hqm : q = m
    · subst hqm
      have hbetween := writes_of_between w b y (q * b) rn hww hwb hq1 hq2 hry
      rw [writeStep_hit w b y x T grid _ (q * b) (rn : ℤ) c
        (by exact_mod_cast hbetween.1) (by exact_mod_cast hbetween.2)]
    · have hqlt : q < m := by omega
      have hsw : writeStart w (m * b) = m * b :=
        writeStart_of_ge w b (m * b) hww hwb (Nat.le_mul_of_pos_left b (by omega))
      have hlt2 : rn < m * b := by
        have hc : (q + 1) * b ≤ m * b := Nat.mul_le_mul_right b (by omega)
        have hd : (q + 1) * b = q * b + b := by ring
        omega
      rw [writeStep_miss w b y x T grid _ (m * b) (rn : ℤ) c ?hmiss]
      · exact ih g0 hqlt
      case hmiss =>
        rintro ⟨ha, _⟩
        rw [hsw] at ha
        have hcast : ((m * b : ℕ) : ℤ) ≤ (rn : ℤ) := ha
        omega

theorem assembled_eq_blockOut (w b y x : ℕ) (T : ℝ) (grid : ℤ → ℤ → ℤ)
    (rn : ℕ) (c : ℤ) (hww : w % 2 = 1) (hwb : w ≤ b) (hry : rn < y) :
    assembled w b y x T grid (rn : ℤ) c =
      blockOut w b y x T grid ((rn / b) * b)
        ((rn : ℤ) - (blockYoff w ((rn / b) * b) : ℤ)) c := by
  have hb : 0 < b := by omega
  unfold assembled blockStarts
  apply foldl_writeStep_eval w b y x T grid rn (rn / b) c hww hwb hry
    (Nat.div_mul_le_self rn b) (lt_div_mul_add b rn hb)
    (numBlocks b y) _ (div_lt_numBlocks b y rn hb hry)

theorem padded_shift_eq (nB nW m yoff : ℕ) (f : ℤ → ℤ → ℚ) (a c : ℤ)
    (hcond : (0 ≤ a ∧ a < (nW : ℤ)) ↔
      ((yoff : ℤ) ≤ a ∧ a < (yoff : ℤ) + (nB : ℤ))) :
    padded nB m (fun r' c' => f ((yoff : ℤ) + r') c') (a - (yoff : ℤ)) c =
      padded nW m f a c := by
  have harg : (yoff : ℤ) + (a - (yoff : ℤ)) = a := by ring
  have hcb : (0 ≤ a - (yoff : ℤ) ∧ a - (yoff : ℤ) < (nB : ℤ) ∧
      0 ≤ c ∧ c < (m : ℤ)) ↔
      (0 ≤ a ∧ a < (nW : ℤ) ∧ 0 ≤ c ∧ c < (m : ℤ)) := by
    constructor
    · rintro ⟨h1, h2, h3, h4⟩
      have h5 := hcond.mpr ⟨by omega, by omega⟩
      exact ⟨h5.1, h5.2, h3, h4⟩
    · rintro ⟨h1, h2, h3, h4⟩
      have h5 := hcond.mp ⟨h1, h2⟩
      exact ⟨by omega, by omega, h3, h4⟩
  unfold padded
  rw [if_congr hcb (show f ((yoff : ℤ) + (a - (yoff : ℤ))) c = f a c from by rw [harg]) rfl]

theorem uniformFilter_shift (w nB nW m yoff : ℕ) (f : ℤ → ℤ → ℚ) (a c : ℤ)
    (hcond : ∀ dr : ℤ, dr ∈ Finset.Icc (-(halo w : ℤ)) (halo w : ℤ) →
      ((0 ≤ a + dr ∧ a + dr < (nW : ℤ)) ↔
        ((yoff : ℤ) ≤ a + dr ∧ a + dr < (yoff : ℤ) + (nB : ℤ)))) :
    uniformFilter w nB m (fun r' c' => f ((yoff : ℤ) + r') c')
        (a - (yoff : ℤ)) c =
      uniformFilter w nW m f a c := by
  unfold uniformFilter
  congr 1
  apply Finset.sum_congr rfl
  intro dr hdr
  apply Finset.sum_congr rfl
  intro dc _
  have hre : a - (yoff : ℤ) + dr = (a + dr) - (yoff : ℤ) := by ring
  rw [hre]
  exact padded_shift_eq nB nW m yoff f (a + dr) (c + dc) (hcond dr hdr)

theorem outData_shift (w nB nW m yoff : ℕ) (timeInterval : ℝ)
    (grid : ℤ → ℤ → ℤ) (a c : ℤ)
    (hcond : ∀ dr : ℤ, dr ∈ Finset.Icc (-(halo w : ℤ)) (halo w : ℤ) →
      ((0 ≤ a + dr ∧ a + dr < (nW : ℤ)) ↔
        ((yoff : ℤ) ≤ a + dr ∧ a + dr < (yoff : ℤ) + (nB : ℤ)))) :
    outData w nB m timeInterval (blockIn grid yoff) (a - (yoff : ℤ)) c =
      outData w nW m timeInterval grid a c := by
  have harg : (yoff : ℤ) + (a - (yoff : ℤ)) = a := by ring
  unfold outData winDefor winFor blockIn
  have hdef : deforData (fun r' c' => grid ((yoff : ℤ) + r') c') =
      fun r' c' => deforData grid ((yoff : ℤ) + r') c' := rfl
  have hfor : forData (fun r' c' => grid ((yoff : ℤ) + r') c') =
      fun r' c' => forData grid ((yoff : ℤ) + r') c' := rfl
  rw [hdef, hfor,
    uniformFilter_shift w nB nW m yoff (deforData grid) a c hcond,
    uniformFilter_shift w nB nW m yoff (forData grid) a c hcond, harg]

theorem block_window_rows_ok (w b y q rn : ℕ)
    (hww : w % 2 = 1) (hwb : w ≤ b) (hfl : b + 2 * halo w - 1 < y)
    (hry : rn < y) (hq1 : q * b ≤ rn) (hq2 : rn < q * b + b) :
    ∀ dr : ℤ, dr ∈ Finset.Icc (-(halo w : ℤ)) (halo w : ℤ) →
      ((0 ≤ (rn : ℤ) + dr ∧ (rn : ℤ) + dr < (y : ℤ)) ↔
        ((blockYoff w (q * b) : ℤ) ≤ (rn : ℤ) + dr ∧
          (rn : ℤ) + dr < (blockYoff w (q * b) : ℤ) +
            (blockRows w b y (q * b) : ℤ))) := by
  intro dr hdr
  rw [Finset.mem_Icc] at hdr
  have hq0 : q * b = 0 ∨ b ≤ q * b := by
    rcases Nat.eq_zero_or_pos q with h | h
    · exact Or.inl (by rw [h, Nat.zero_mul])
    · exact Or.inr (Nat.le_mul_of_pos_left b h)
  set i := q * b with hi
  unfold blockYoff blockRows halo
  unfold halo at hfl hdr
  split_ifs with hcond
  · omega
  · omega

/-! ## C10 -/

/-- C10: with sequential processing in increasing row order and the first
block not also the last (`blk_rows + 2*(win_size//2) - 1 < ysize`), the
assembled Output Grid coincides, on every grid row, with the single-pass
computation over the whole grid: each row's final value comes from the block
whose read window fully covers that row's focal window, so the halo rows a
block writes with boundary contamination are later overwritten and blocking
is observationally transparent. -/
theorem C10_blocking_transparent (w b y x : ℕ) (timeInterval : ℝ)
    (grid : ℤ → ℤ → ℤ) (hww : w % 2 = 1) (hwb : w ≤ b)
    (hfl : b + 2 * halo w - 1 < y) :
    ∀ rn : ℕ, rn < y → ∀ c : ℤ,
      assembled w b y x timeInterval grid (rn : ℤ) c =
        wholeOut w y x timeInterval grid (rn : ℤ) c := by
  intro rn hry c
  have hb : 0 < b := by omega
  rw [assembled_eq_blockOut w b y x timeInterval grid rn c hww hwb hry]
  unfold blockOut wholeOut
  exact outData_shift w (blockRows w b y ((rn / b) * b)) y x
    (blockYoff w ((rn / b) * b)) timeInterval grid (rn : ℤ) c
    (block_window_rows_ok w b y (rn / b) rn hww hwb hfl hry
      (Nat.div_mul_le_self rn b) (lt_div_mul_add b rn hb))

/-- C10 (witness): the transparency theorem applied at a concrete
configuration, grid and cell. -/
theorem C10_blocking_transparent_witness :
    3 % 2 = 1 ∧ 3 ≤ 3 ∧ 3 + 2 * halo 3 - 1 < 8 ∧ 0 < 8 ∧
      assembled 3 3 8 2 1 (fun _ _ => 3) 0 0 =
        wholeOut 3 8 2 1 (fun _ _ => 3) 0 0 :=
  ⟨rfl, by decide, by decide, by decide,
    C10_blocking_transparent 3 3 8 2 1 (fun _ _ => 3) rfl (by decide)
      (by decide) 0 (by decide) 0⟩
